import Mathlib

/-!
# Design-token extraction pipeline of `stitch-mcp-app` — a shallow embedding

This file embeds the pure design-token extraction helpers of
`src/stitch-client.ts` (also exported, identically, from the unnamed server
module): `extractInlineStyles`, `extractTailwindConfig`,
`extractTailwindColors`, `extractTailwindFonts`, `extractColors`,
`extractFonts`, `extractSpacing`, `extractLayouts`, and the pure
token-merging part of `extractDesignContext` (everything after the two
network fetches produced the `css`/`html` strings and the optional
`screen.theme` object).

JavaScript regular-expression scans are embedded as hand-derived matchers
over `List Char`; each matcher's doc comment names the regex it implements
and the backtracking analysis is local to that regex (every matcher below
is exact for its pattern, including greedy/lazy quantifier behaviour).
JavaScript `String.prototype.toLowerCase` / `toUpperCase` are modelled on
the ASCII range (all case-sensitive data handled by the extractor — hex
digits, property names — is ASCII).  `decodeURIComponent`, the one
exception-throwing operation reachable from the extractor, is embedded as
an `Option`-returning function (`none` = JS `URIError`).
-/

set_option maxRecDepth 8000

namespace Stitch

/-- JS `\s` (and the `String.prototype.trim` whitespace class): ASCII
whitespace plus the Unicode space separators, NEL excluded, FEFF included. -/
def jsIsSpace (c : Char) : Bool :=
  c = ' ' || c = '\t' || c = '\n' || c = '\r' || c.toNat = 0x0b || c.toNat = 0x0c ||
  c.toNat = 0xa0 || c.toNat = 0x1680 || (0x2000 ≤ c.toNat && c.toNat ≤ 0x200a) ||
  c.toNat = 0x2028 || c.toNat = 0x2029 || c.toNat = 0x202f || c.toNat = 0x205f ||
  c.toNat = 0x3000 || c.toNat = 0xfeff

/-- JS `\w`: `[A-Za-z0-9_]`. -/
def isWordChar (c : Char) : Bool := c.isAlpha || c.isDigit || c = '_'

/-- The character class `[0-9a-fA-F]` of the colour regexes. -/
def isHexDigitJs (c : Char) : Bool :=
  c.isDigit || (0x61 ≤ c.toNat && c.toNat ≤ 0x66) || (0x41 ≤ c.toNat && c.toNat ≤ 0x46)

/-- `String.prototype.trim` on a character list. -/
def trimL (l : List Char) : List Char :=
  ((l.dropWhile jsIsSpace).reverse.dropWhile jsIsSpace).reverse

/-- `String.prototype.trim`. -/
def jsTrim (s : String) : String := ⟨trimL s.data⟩

/-- `String.prototype.toLowerCase`, ASCII range. -/
def lowerStr (s : String) : String := ⟨s.data.map Char.toLower⟩

/-- `haystack.includes(needle)` on character lists. -/
def hasSubL : List Char → List Char → Bool
  | pat, [] => pat.isEmpty
  | pat, c :: t => pat.isPrefixOf (c :: t) || hasSubL pat t

/-- `haystack.includes(needle)`. -/
def strIncludes (hay pat : String) : Bool := hasSubL pat.data hay.data

/-- `new RegExp("\\b" + w + "\\b").test(s)` for a word `w` made of `\w`
characters: the word occurs with a non-word character (or the string
boundary) on both sides.  The boolean argument records whether the
previous character was a non-word character (true at the start). -/
def wordHitAux (w : List Char) : Bool → List Char → Bool
  | _, [] => false
  | bOk, c :: t =>
    (bOk && w.isPrefixOf (c :: t) &&
      (match (c :: t).drop w.length with
       | [] => true
       | d :: _ => !isWordChar d)) ||
    wordHitAux w (!isWordChar c) t

/-- `/\b<w>\b/.test(s)`. -/
def wordHit (w : String) (s : String) : Bool := wordHitAux w.data true s.data

-- ## Output record (`DesignContext` of `src/stitch-client.ts`)

/-- One entry of `DesignContext.colors`. -/
structure ColorEntry where
  name : String
  hex : String
  usage : String
deriving DecidableEq

/-- One entry of `DesignContext.fonts`. -/
structure FontEntry where
  family : String
  weight : String
  size : String
  usage : String
deriving DecidableEq

/-- One entry of `DesignContext.spacing`. -/
structure SpacingEntry where
  name : String
  value : String
deriving DecidableEq

/-- One entry of `DesignContext.layouts`. -/
structure LayoutEntry where
  type : String
  description : String
deriving DecidableEq

/-- The `DesignContext` record. -/
structure DesignContext where
  colors : List ColorEntry
  fonts : List FontEntry
  spacing : List SpacingEntry
  layouts : List LayoutEntry
deriving DecidableEq

/-- The string-valued fields of the API `screen.theme` object that the merge
step reads.  A field whose JS value is absent or not a string behaves as
`none` (the code guards each read with `typeof === 'string'`). -/
structure ThemeData where
  customColor : Option String
  font : Option String
  colorMode : Option String

-- ## Generic global-regex scan
--
-- `regex.exec` in a `while` loop with the `g` flag: at each index try the
-- pattern; on success emit the captures and resume at the end of the match
-- (every matcher below consumes at least one character); on failure advance
-- one character.  Fuel is the length of the scanned list, which bounds the
-- number of steps.

/-- Global scan driver (the `while ((match = re.exec(s)) !== null)` loop). -/
def scanWith {α : Type} (tryAt : List Char → Option (α × List Char)) :
    Nat → List Char → List α
  | 0, _ => []
  | _ + 1, [] => []
  | fuel + 1, c :: t =>
    match tryAt (c :: t) with
    | some (v, rest) => v :: scanWith tryAt fuel rest
    | none => scanWith tryAt fuel t

/-- First-match driver (a bare `re.exec(s)` without the `g` flag). -/
def firstWith {α : Type} (tryAt : List Char → Option α) :
    Nat → List Char → Option α
  | 0, _ => none
  | _ + 1, [] => none
  | fuel + 1, c :: t =>
    match tryAt (c :: t) with
    | some v => some v
    | none => firstWith tryAt fuel t

-- ## `\s*([^;]+)` — the declaration-value tail of the font and spacing regexes

/-- Matches `\s*([^;]+)` at the head of `l`; returns the captured group and
the remainder after the whole match.  Derivation: `[^;]+` cannot cross a
semicolon, so the whole match always ends at the `;`-free prefix `p` of `l`.
`\s*` greedily takes the whitespace prefix `w`; if a non-whitespace
character is left inside `p` the capture is `p` minus `w`, otherwise the
engine backtracks one character of `\s*` and the capture is the last
(whitespace) character of `p`.  If `p` is empty the pattern fails. -/
def wsCapture (p : List Char) : List Char :=
  if (p.takeWhile jsIsSpace).length < p.length then p.drop (p.takeWhile jsIsSpace).length
  else [p.getLastD ' ']

/-- Matches `\s*([^;]+)` at the head of `l` (see `wsCapture` for the
capture itself). -/
def matchWsValue (l : List Char) : Option (List Char × List Char) :=
  if (l.takeWhile (fun c => c ≠ ';')).isEmpty then none
  else
    some (wsCapture (l.takeWhile (fun c => c ≠ ';')),
      l.drop (l.takeWhile (fun c => c ≠ ';')).length)

/-- Matches `<lit>\s*([^;]+)` at the head of `l` (the literal includes the
colon, e.g. `font-family:`). -/
def tryDecl {α : Type} (lit : List Char) (mk : List Char → α) (l : List Char) :
    Option (α × List Char) :=
  if lit.isPrefixOf l then
    (matchWsValue (l.drop lit.length)).map (fun pr => (mk pr.1, pr.2))
  else none

-- ## `extractColors` — `/(#[0-9a-fA-F]{3,8}|rgb[a]?\([^)]+\)|hsl[a]?\([^)]+\))/g`

/-- Matches `f[a]?\([^)]+\)` (with `f` = `rgb` or `hsl`) at the head of `l`.
`[a]?` is greedy; backtracking is vacuous because `a ≠ (`.  `[^)]+` runs to
the first closing parenthesis, which must exist. -/
def tryFnColor (f : List Char) (l : List Char) : Option (List Char × List Char) :=
  if f.isPrefixOf l then
    let l1 := l.drop f.length
    let core : List Char → List Char → Option (List Char × List Char) :=
      fun pre l2 =>
        match l2 with
        | '(' :: l3 =>
          let body := l3.takeWhile (fun c => c ≠ ')')
          if body.isEmpty then none
          else
            match l3.drop body.length with
            | ')' :: l4 => some (pre ++ '(' :: body ++ [')'], l4)
            | _ => none
        | _ => none
    match l1 with
    | 'a' :: l2 =>
      match core (f ++ ['a']) l2 with
      | some r => some r
      | none => core f l1
    | _ => core f l1
  else none

/-- One alternation step of the colour regex: `#`-hex first, then `rgb`,
then `hsl` (JS alternation is ordered). `{3,8}` is greedy: at most eight
hex digits, at least three. -/
def tryColorToken (l : List Char) : Option (List Char × List Char) :=
  match l with
  | '#' :: t =>
    let h := (t.takeWhile isHexDigitJs).take 8
    if h.length < 3 then none
    else some ('#' :: h, t.drop h.length)
  | _ =>
    match tryFnColor ['r', 'g', 'b'] l with
    | some r => some r
    | none => tryFnColor ['h', 's', 'l'] l

/-- The full global scan of the colour regex: matched strings in document
order, duplicates included. -/
def colorTokens (css : String) : List String :=
  (scanWith tryColorToken css.data.length css.data).map (fun l => ⟨l⟩)

/-- The dedup-and-name loop body of `extractColors`: `seen` is the JS
`Set<string>` (exact string key), the counter is `colors.length`. -/
def extractColorsAux : List String → List String → Nat → List ColorEntry
  | [], _, _ => []
  | h :: t, seen, n =>
    if h ∈ seen then extractColorsAux t seen n
    else
      ⟨"color-" ++ toString (n + 1), h, "Extracted from CSS"⟩ ::
        extractColorsAux t (h :: seen) (n + 1)

/-- `extractColors` of `src/stitch-client.ts` lines 315–333. -/
def extractColors (css : String) : List ColorEntry :=
  extractColorsAux (colorTokens css) [] 0

-- ## `extractFonts` — three independent scans plus a first-wins pairing

/-- Captures of `/font-family:\s*([^;]+)/g`, post-processed as in the source:
`match[1].trim().replace(/['"]/g, '')` (trim first, then strip quotes). -/
def fontFamilyVals (css : String) : List String :=
  (scanWith (tryDecl "font-family:".data id) css.data.length css.data).map
    (fun cap => ⟨(trimL cap).filter (fun c => c ≠ '\'' && c ≠ '"')⟩)

/-- Captures of `/font-size:\s*([^;]+)/g`, trimmed. -/
def fontSizeVals (css : String) : List String :=
  (scanWith (tryDecl "font-size:".data id) css.data.length css.data).map
    (fun cap => ⟨trimL cap⟩)

/-- Captures of `/font-weight:\s*([^;]+)/g`, trimmed. -/
def fontWeightVals (css : String) : List String :=
  (scanWith (tryDecl "font-weight:".data id) css.data.length css.data).map
    (fun cap => ⟨trimL cap⟩)

/-- The insertion-ordered `Set<string>` build:
`if (!families.has(family)) families.add(family)`. -/
def buildFams : List String → List String → List String
  | [], fams => fams
  | h :: t, fams =>
    if h ∈ fams then buildFams t fams else buildFams t (fams ++ [h])

/-- `xs[0] || dflt` for a JS string array: `undefined` and the empty string
are both falsy. -/
def jsIndex0Or (l : List String) (dflt : String) : String :=
  match l with
  | [] => dflt
  | h :: _ => if h = "" then dflt else h

/-- `extractFonts` of `src/stitch-client.ts` lines 335–371: every distinct
family is paired with the globally-first weight and size. -/
def extractFonts (css : String) : List FontEntry :=
  (buildFams (fontFamilyVals css) []).map
    (fun fam =>
      ⟨fam, jsIndex0Or (fontWeightVals css) "400",
        jsIndex0Or (fontSizeVals css) "16px", "Extracted from CSS"⟩)

-- ## `extractSpacing` — `/(margin|padding|gap):\s*([^;]+)/g`

/-- One alternation step of the spacing regex (ordered alternation
`margin|padding|gap`; the raw group-2 capture is kept untrimmed). -/
def trySpacingAt (l : List Char) : Option ((String × List Char) × List Char) :=
  match tryDecl "margin:".data (fun cap => (("margin" : String), cap)) l with
  | some r => some r
  | none =>
    match tryDecl "padding:".data (fun cap => (("padding" : String), cap)) l with
    | some r => some r
    | none => tryDecl "gap:".data (fun cap => (("gap" : String), cap)) l

/-- The full spacing scan: `(property, raw group-2 capture)` pairs in
document order. -/
def spacingMatches (css : String) : List (String × List Char) :=
  scanWith trySpacingAt css.data.length css.data

/-- The spacing pairs after the source's trimming, in document order
(duplicates included); used to state the characterisation theorems. -/
def spacingVals (css : String) : List (String × String) :=
  (spacingMatches css).map (fun pc => (pc.1, (⟨trimL pc.2⟩ : String)))

/-- The dedup key `` `${match[1]}-${value}` ``. -/
def spacingKey (p v : String) : String := p ++ "-" ++ v

/-- The dedup loop of `extractSpacing`: `seen` is the JS `Set<string>` of
keys. -/
def extractSpacingAux : List (String × String) → List String → List SpacingEntry
  | [], _ => []
  | (p, v) :: t, seen =>
    if spacingKey p v ∈ seen then extractSpacingAux t seen
    else ⟨p, v⟩ :: extractSpacingAux t (spacingKey p v :: seen)

/-- `extractSpacing` of `src/stitch-client.ts` lines 373–391. -/
def extractSpacing (css : String) : List SpacingEntry :=
  extractSpacingAux (spacingVals css) []

-- ## `extractLayouts` — substring and word-boundary heuristics

/-- `extractLayouts` of `src/stitch-client.ts` lines 393–408. -/
def extractLayouts (html : String) : List LayoutEntry :=
  (if strIncludes html "display: flex" || strIncludes html "display:flex" ||
      wordHit "flex" html then
    [⟨"Flexbox", "Uses CSS Flexbox for layout"⟩]
  else []) ++
  (if strIncludes html "display: grid" || strIncludes html "display:grid" ||
      wordHit "grid" html then
    [⟨"Grid", "Uses CSS Grid for layout"⟩]
  else []) ++
  (if strIncludes html "position: absolute" || strIncludes html "position:absolute" ||
      wordHit "absolute" html then
    [⟨"Absolute", "Uses absolute positioning"⟩]
  else [])

-- ## `extractInlineStyles` — `/<style[^>]*>([\s\S]*?)<\/style>/gi`

/-- Case-insensitive (ASCII) literal prefix test, for the `i` flag. -/
def ciIsPrefix : List Char → List Char → Bool
  | [], _ => true
  | _ :: _, [] => false
  | p :: ps, c :: cs => (p.toLower = c.toLower) && ciIsPrefix ps cs

/-- Finds the first case-insensitive occurrence of `</style>` (the lazy
`[\s\S]*?` body capture): returns the characters before it and the
remainder after it. -/
def findStyleClose : Nat → List Char → Option (List Char × List Char)
  | 0, _ => none
  | _ + 1, [] => none
  | fuel + 1, c :: t =>
    if ciIsPrefix "</style>".data (c :: t) then some ([], (c :: t).drop 8)
    else (findStyleClose fuel t).map (fun pr => (c :: pr.1, pr.2))

/-- Matches `<style[^>]*>([\s\S]*?)<\/style>` (case-insensitively) at the
head of `l`: `[^>]*` greedily runs to the first `>`, the body capture is
lazy, so it ends at the first closing tag. -/
def tryStyleAt (l : List Char) : Option (List Char × List Char) :=
  if ciIsPrefix "<style".data l then
    let l1 := l.drop 6
    let attrs := l1.takeWhile (fun c => c ≠ '>')
    match l1.drop attrs.length with
    | '>' :: body => findStyleClose body.length body
    | _ => none
  else none

/-- `extractInlineStyles` of `src/stitch-client.ts` lines 252–260: all
`<style>` bodies joined with newlines. -/
def extractInlineStyles (html : String) : String :=
  String.intercalate "\n"
    ((scanWith tryStyleAt html.data.length html.data).map (fun l => ⟨l⟩))

-- ## `extractTailwindConfig` — `/tailwind\.config\s*=\s*(\{[\s\S]*?\})\s*;?\s*<\/script>/`

/-- The trailing-context check `\s*;?\s*<\/script>`: greedy whitespace, one
optional semicolon, greedy whitespace, then the literal.  No backtracking
case survives (whitespace, `;` and `<` are pairwise incompatible). -/
def closerOk (l : List Char) : Bool :=
  let l1 := l.dropWhile jsIsSpace
  let l2 := match l1 with
    | ';' :: t => t
    | _ => l1
  "</script>".data.isPrefixOf (l2.dropWhile jsIsSpace)

/-- The lazy brace search: the characters up to the first `}` that is
followed by a valid closer.  Returns the gap (without the brace). -/
def findConfigClose : List Char → Option (List Char)
  | [] => none
  | c :: t =>
    if c = '}' && closerOk t then some []
    else (findConfigClose t).map (fun g => c :: g)

/-- Matches the whole config pattern at the head of `l`, returning group 1
(braces included). -/
def tryConfigAt (l : List Char) : Option (List Char) :=
  if "tailwind.config".data.isPrefixOf l then
    let l1 := (l.drop 15).dropWhile jsIsSpace
    match l1 with
    | '=' :: l2 =>
      match l2.dropWhile jsIsSpace with
      | '{' :: l3 =>
        (findConfigClose l3).map (fun g => '{' :: g ++ ['}'])
      | _ => none
    | _ => none
  else none

/-- `extractTailwindConfig` of `src/stitch-client.ts` lines 262–267: the
first match's group 1, or the empty string. -/
def extractTailwindConfig (html : String) : String :=
  match firstWith tryConfigAt html.data.length html.data with
  | some g => ⟨g⟩
  | none => ""

-- ## `extractTailwindColors` — `/['"]?(\w+)['"]?\s*:\s*['"]?(#[0-9a-fA-F]{3,8})['"]?/g`

/-- Consume one optional quote character (`['"]?`; greedy, and backtracking
is vacuous at every use site below). -/
def skipQuote : List Char → List Char
  | '\'' :: t => t
  | '"' :: t => t
  | l => l

/-- Matches the Tailwind colour pattern at the head of `l`, returning the
`(name, hex)` captures and the remainder after the whole match (including
a consumed trailing quote). -/
def tryTwColorAt (l : List Char) : Option ((String × String) × List Char) :=
  let l1 := skipQuote l
  let nm := l1.takeWhile isWordChar
  if nm.isEmpty then none
  else
    let l2 := skipQuote (l1.drop nm.length)
    match l2.dropWhile jsIsSpace with
    | ':' :: l3 =>
      match skipQuote (l3.dropWhile jsIsSpace) with
      | '#' :: l4 =>
        let hx := (l4.takeWhile isHexDigitJs).take 8
        if hx.length < 3 then none
        else some (((⟨nm⟩ : String), (⟨'#' :: hx⟩ : String)), skipQuote (l4.drop hx.length))
      | _ => none
    | _ => none

/-- The full Tailwind-colour scan: `(key, hex)` pairs in document order. -/
def twColorCaptures (config : String) : List (String × String) :=
  scanWith tryTwColorAt config.data.length config.data

/-- The dedup loop of `extractTailwindColors`: `seen` holds lowercased hex
strings. -/
def extractTailwindColorsAux : List (String × String) → List String → List ColorEntry
  | [], _ => []
  | (n, h) :: t, seen =>
    if lowerStr h ∈ seen then extractTailwindColorsAux t seen
    else ⟨n, h, "Tailwind theme"⟩ :: extractTailwindColorsAux t (lowerStr h :: seen)

/-- `extractTailwindColors` of `src/stitch-client.ts` lines 269–285. -/
def extractTailwindColors (config : String) : List ColorEntry :=
  extractTailwindColorsAux (twColorCaptures config) []

-- ## `extractTailwindFonts` — two scans sharing one dedup set

/-- The tail of `/fontFamily[\s\S]*?['"](\w[\w\s]*)['"](?:\s*,|\s*\])/g`
after the lazy gap: a quote, the capture `\w[\w\s]*` (greedy; it stops at
the quote since quotes are neither `\w` nor `\s`), a quote (the two quotes
may differ), then `\s*` and a comma or closing bracket. -/
def tryTwFontTail (l : List Char) : Option (String × List Char) :=
  match l with
  | q :: w :: t =>
    if (q = '\'' || q = '"') && isWordChar w then
      let body := t.takeWhile (fun c => isWordChar c || jsIsSpace c)
      match t.drop body.length with
      | q2 :: l3 =>
        if q2 = '\'' || q2 = '"' then
          match l3.dropWhile jsIsSpace with
          | ',' :: l5 => some ((⟨w :: body⟩ : String), l5)
          | ']' :: l5 => some ((⟨w :: body⟩ : String), l5)
          | _ => none
        else none
      | [] => none
    else none
  | _ => none

/-- The lazy-gap search after a `fontFamily` literal: first position where
the tail pattern matches. -/
def findTwFontTail : Nat → List Char → Option (String × List Char)
  | 0, _ => none
  | _ + 1, [] => none
  | fuel + 1, c :: t =>
    match tryTwFontTail (c :: t) with
    | some r => some r
    | none => findTwFontTail fuel t

/-- One step of the font-family scan: the `fontFamily` literal, then the
lazy gap, then the tail. -/
def tryTwFontAt (l : List Char) : Option (String × List Char) :=
  if "fontFamily".data.isPrefixOf l then
    findTwFontTail (l.drop 10).length (l.drop 10)
  else none

/-- The raw captures of the `fontFamily` regex over the config text. -/
def twFontCaptures (config : String) : List String :=
  scanWith tryTwFontAt config.data.length config.data

/-- Matches `fonts\.googleapis\.com\/css2?\?family=([^&"'<>\s]+)` at the
head of `l`.  `2?` is greedy; its backtracking is vacuous (`2 ≠ ?`). -/
def tryGoogleFontAt (l : List Char) : Option (String × List Char) :=
  if "fonts.googleapis.com/css".data.isPrefixOf l then
    let l1 := l.drop 24
    let l2? : Option (List Char) :=
      match l1 with
      | '2' :: t =>
        if "?family=".data.isPrefixOf t then some (t.drop 8)
        else if "?family=".data.isPrefixOf l1 then some (l1.drop 8) else none
      | _ =>
        if "?family=".data.isPrefixOf l1 then some (l1.drop 8) else none
    match l2? with
    | some l2 =>
      let cap := l2.takeWhile (fun c =>
        !(c = '&' || c = '"' || c = '\'' || c = '<' || c = '>' || jsIsSpace c))
      if cap.isEmpty then none else some ((⟨cap⟩ : String), l2.drop cap.length)
    | none => none
  else none

/-- The raw captures of the Google-Fonts regex over the HTML text. -/
def googleFontCaptures (html : String) : List String :=
  scanWith tryGoogleFontAt html.data.length html.data

-- ### `decodeURIComponent`

/-- Value of one hex digit (both cases), or failure. -/
def hexDigitVal (c : Char) : Option Nat :=
  if c.isDigit then some (c.toNat - 0x30)
  else if 0x61 ≤ c.toNat && c.toNat ≤ 0x66 then some (c.toNat - 0x61 + 10)
  else if 0x41 ≤ c.toNat && c.toNat ≤ 0x46 then some (c.toNat - 0x41 + 10)
  else none

/-- One `%HH` escape: the byte and the remainder. -/
def pctByte : List Char → Option (Nat × List Char)
  | '%' :: a :: b :: t =>
    match hexDigitVal a, hexDigitVal b with
    | some x, some y => some (16 * x + y, t)
    | _, _ => none
  | _ => none

/-- One UTF-8 continuation escape whose byte must lie in `[lo, hi]`;
returns its six payload bits. -/
def pctCont (lo hi : Nat) (l : List Char) : Option (Nat × List Char) :=
  match pctByte l with
  | some (b, t) => if lo ≤ b && b ≤ hi then some (b % 64, t) else none
  | _ => none

/-- Decode the escape sequence starting at a `%`: strict UTF-8 as specified
for `decodeURIComponent` (no overlong forms, no surrogates, at most
U+10FFFF).  Returns the decoded character and the remainder. -/
def pctDecodeOne (l : List Char) : Option (Char × List Char) :=
  match pctByte l with
  | none => none
  | some (b, t) =>
    if b < 0x80 then some (Char.ofNat b, t)
    else if 0xc2 ≤ b && b ≤ 0xdf then
      match pctCont 0x80 0xbf t with
      | some (x, t1) => some (Char.ofNat ((b - 0xc0) * 64 + x), t1)
      | none => none
    else if 0xe0 ≤ b && b ≤ 0xef then
      let lo1 := if b = 0xe0 then 0xa0 else 0x80
      let hi1 := if b = 0xed then 0x9f else 0xbf
      match pctCont lo1 hi1 t with
      | some (x, t1) =>
        match pctCont 0x80 0xbf t1 with
        | some (y, t2) => some (Char.ofNat ((b - 0xe0) * 4096 + x * 64 + y), t2)
        | none => none
      | none => none
    else if 0xf0 ≤ b && b ≤ 0xf4 then
      let lo1 := if b = 0xf0 then 0x90 else 0x80
      let hi1 := if b = 0xf4 then 0x8f else 0xbf
      match pctCont lo1 hi1 t with
      | some (x, t1) =>
        match pctCont 0x80 0xbf t1 with
        | some (y, t2) =>
          match pctCont 0x80 0xbf t2 with
          | some (z, t3) =>
            some (Char.ofNat ((b - 0xf0) * 262144 + x * 4096 + y * 64 + z), t3)
          | none => none
        | none => none
      | none => none
    else none

/-- `decodeURIComponent`, `none` = thrown `URIError`. -/
def decodeAux : Nat → List Char → Option (List Char)
  | _, [] => some []
  | 0, _ :: _ => none
  | fuel + 1, c :: t =>
    if c = '%' then
      match pctDecodeOne (c :: t) with
      | some (d, rest) => (decodeAux fuel rest).map (fun r => d :: r)
      | none => none
    else (decodeAux fuel t).map (fun r => c :: r)

/-- `decodeURIComponent` on a string; `none` models the thrown `URIError`. -/
def jsDecodeURIComponent (s : String) : Option String :=
  (decodeAux s.data.length s.data).map (fun l => ⟨l⟩)

/-- The per-capture post-processing of the Google-Fonts pass:
`decodeURIComponent(cap).split(':')[0].replace(/\+/g, ' ').trim()`. -/
def googleFamilyOf (cap : String) : Option String :=
  (jsDecodeURIComponent cap).map (fun dec =>
    jsTrim ⟨(dec.data.takeWhile (fun c => c ≠ ':')).map
      (fun c => if c = '+' then ' ' else c)⟩)

/-- The first (Tailwind-config) dedup loop of `extractTailwindFonts`;
returns the pushed entries in order together with the final shared
lowercased-family seen set. -/
def twFontCfgAux : List String → List String → List FontEntry × List String
  | [], seen => ([], seen)
  | cap :: t, seen =>
    let family := jsTrim cap
    if family ≠ "" && lowerStr family ∉ seen then
      let pr := twFontCfgAux t (lowerStr family :: seen)
      (⟨family, "400", "16px", "Tailwind theme"⟩ :: pr.1, pr.2)
    else twFontCfgAux t seen

/-- The second (Google-Fonts) loop of `extractTailwindFonts`, continuing
with the seen set of the first loop; `none` propagates a
`decodeURIComponent` throw. -/
def twFontGoogleAux : List String → List String → Option (List FontEntry)
  | [], _ => some []
  | cap :: t, seen =>
    match googleFamilyOf cap with
    | none => none
    | some family =>
      if family ≠ "" && lowerStr family ∉ seen then
        (twFontGoogleAux t (lowerStr family :: seen)).map
          (fun fs => ⟨family, "400", "16px", "Google Fonts"⟩ :: fs)
      else twFontGoogleAux t seen

/-- `extractTailwindFonts` of `src/stitch-client.ts` lines 287–313; `none`
models the `URIError` thrown by `decodeURIComponent` on a malformed
percent-escape. -/
def extractTailwindFonts (config html : String) : Option (List FontEntry) :=
  let pr := twFontCfgAux (twFontCaptures config) []
  (twFontGoogleAux (googleFontCaptures html) pr.2).map (fun fs => pr.1 ++ fs)

-- ## The pure merge of `extractDesignContext` (lines 155–212)

/-- `(theme.font as string).replace(/_/g, ' ')`. -/
def underscoreToSpace (s : String) : String :=
  ⟨s.data.map (fun c => if c = '_' then ' ' else c)⟩

/-- `.replace(/\b\w/g, c => c.toUpperCase())`: uppercase every word
character preceded by a non-word character or the string start. -/
def titleCaseAux : Bool → List Char → List Char
  | _, [] => []
  | atBoundary, c :: t =>
    (if atBoundary && isWordChar c then c.toUpper else c) ::
      titleCaseAux (!isWordChar c) t

/-- Title-casing of the theme font name. -/
def titleCase (s : String) : String := ⟨titleCaseAux true s.data⟩

/-- The `theme.customColor` fallback (lines 193–198): prepend a `primary`
entry unless some colour already matches case-insensitively.  The outer
guard is JS truthiness plus `typeof === 'string'`, so the empty string is
skipped. -/
def themeColorStep (o : Option String) (ctx : DesignContext) : DesignContext :=
  match o with
  | some s =>
    if s = "" then ctx
    else if ctx.colors.any (fun c => lowerStr c.hex = lowerStr s) then ctx
    else { ctx with colors := ⟨"primary", s, "Theme primary color"⟩ :: ctx.colors }
  | none => ctx

/-- The `theme.font` fallback (lines 199–205): title-case the snake-cased
name and prepend it unless some family already contains it
(case-insensitive substring test). -/
def themeFontStep (o : Option String) (ctx : DesignContext) : DesignContext :=
  match o with
  | some s =>
    if s = "" then ctx
    else
      let fontName := titleCase (underscoreToSpace s)
      if ctx.fonts.any (fun f => strIncludes (lowerStr f.family) (lowerStr fontName))
      then ctx
      else { ctx with fonts := ⟨fontName, "400", "16px", "Theme font"⟩ :: ctx.fonts }
  | none => ctx

/-- The `theme.colorMode` fallback (lines 206–208): prepend a layout entry,
with no dedup check (but behind the same truthiness guard). -/
def themeModeStep (o : Option String) (ctx : DesignContext) : DesignContext :=
  match o with
  | some s =>
    if s = "" then ctx
    else { ctx with layouts := ⟨s, s ++ " color mode"⟩ :: ctx.layouts }
  | none => ctx

/-- The theme-fallback merge (lines 190–209): `customColor`, then `font`,
then `colorMode`, applied sequentially. -/
def applyTheme (theme : Option ThemeData) (ctx : DesignContext) : DesignContext :=
  match theme with
  | none => ctx
  | some t => themeModeStep t.colorMode (themeFontStep t.font (themeColorStep t.customColor ctx))

/-- The stages of `extractDesignContext` before the theme merge: combine the
CSS file with the harvested inline styles, run the plain-CSS extractors,
then the Tailwind/Google-Fonts extractors and layout detection on the HTML.
`none` propagates the `decodeURIComponent` throw. -/
def preThemeContext (css html : String) : Option DesignContext :=
  let inl := if html = "" then "" else extractInlineStyles html
  let allCss := String.intercalate "\n" (([css, inl].filter (fun s => s ≠ "")))
  let c0 : DesignContext :=
    if allCss = "" then ⟨[], [], [], []⟩
    else ⟨extractColors allCss, extractFonts allCss, extractSpacing allCss, []⟩
  if html = "" then some c0
  else
    let cfg := extractTailwindConfig html
    let c1? : Option DesignContext :=
      if cfg = "" then some c0
      else
        match extractTailwindFonts cfg html with
        | none => none
        | some twf =>
          some { c0 with
                 colors := c0.colors ++ extractTailwindColors cfg,
                 fonts := c0.fonts ++ twf }
    match c1? with
    | none => none
    | some c1 => some { c1 with layouts := extractLayouts html }

/-- The pure token-merging of `extractDesignContext` as a function of the
fetched CSS text, HTML text and `screen.theme`. -/
def extractDesignContextPure (css html : String) (theme : Option ThemeData) :
    Option DesignContext :=
  (preThemeContext css html).map (applyTheme theme)

-- ## JSON serialization (`JSON.stringify` wire format of the record)

/-- Hex digit character (lowercase), for `\u00XX` escapes. -/
def hexChar (n : Nat) : Char :=
  if n < 10 then Char.ofNat (0x30 + n) else Char.ofNat (0x61 + n - 10)

/-- `JSON.stringify` escaping of one character. -/
def jsonEscapeChar (c : Char) : List Char :=
  if c = '"' then ['\\', '"']
  else if c = '\\' then ['\\', '\\']
  else if c.toNat = 8 then ['\\', 'b']
  else if c = '\t' then ['\\', 't']
  else if c = '\n' then ['\\', 'n']
  else if c.toNat = 12 then ['\\', 'f']
  else if c = '\r' then ['\\', 'r']
  else if c.toNat < 0x20 then
    ['\\', 'u', '0', '0', hexChar (c.toNat / 16), hexChar (c.toNat % 16)]
  else [c]

/-- A JSON string literal. -/
def jsonStr (s : String) : String :=
  ⟨'"' :: (s.data.map jsonEscapeChar).flatten ++ ['"']⟩

/-- Serialization of one colour entry (field order as in the source). -/
def colorJson (c : ColorEntry) : String :=
  "\x7b\"name\":" ++ jsonStr c.name ++ ",\"hex\":" ++ jsonStr c.hex ++
    ",\"usage\":" ++ jsonStr c.usage ++ "\x7d"

/-- Serialization of one font entry. -/
def fontJson (f : FontEntry) : String :=
  "\x7b\"family\":" ++ jsonStr f.family ++ ",\"weight\":" ++ jsonStr f.weight ++
    ",\"size\":" ++ jsonStr f.size ++ ",\"usage\":" ++ jsonStr f.usage ++ "\x7d"

/-- Serialization of one spacing entry. -/
def spacingJson (sp : SpacingEntry) : String :=
  "\x7b\"name\":" ++ jsonStr sp.name ++ ",\"value\":" ++ jsonStr sp.value ++ "\x7d"

/-- Serialization of one layout entry. -/
def layoutJson (ly : LayoutEntry) : String :=
  "\x7b\"type\":" ++ jsonStr ly.type ++ ",\"description\":" ++
    jsonStr ly.description ++ "\x7d"

/-- `JSON.stringify` of the whole `DesignContext` record. -/
def dcJson (d : DesignContext) : String :=
  "\x7b\"colors\":[" ++ String.intercalate "," (d.colors.map colorJson) ++
    "],\"fonts\":[" ++ String.intercalate "," (d.fonts.map fontJson) ++
    "],\"spacing\":[" ++ String.intercalate "," (d.spacing.map spacingJson) ++
    "],\"layouts\":[" ++ String.intercalate "," (d.layouts.map layoutJson) ++
    "]\x7d"

/-- The JSON output of one full pipeline run (`none` = the run threw). -/
def pipelineJson (css html : String) (theme : Option ThemeData) : Option String :=
  (extractDesignContextPure css html theme).map dcJson

-- ## Generic dedup helpers used by the theorem statements

/-- Keep-first deduplication with an explicit seen accumulator. -/
def dedupFAux : List String → List String → List String
  | [], _ => []
  | h :: t, seen =>
    if h ∈ seen then dedupFAux t seen else h :: dedupFAux t (h :: seen)

/-- Keep-first deduplication (first occurrence survives, order kept). -/
def dedupF (l : List String) : List String := dedupFAux l []

/-- Keep-first deduplication of pairs, by pair equality. -/
def dedupPairAux : List (String × String) → List (String × String) →
    List (String × String)
  | [], _ => []
  | pv :: t, seen =>
    if pv ∈ seen then dedupPairAux t seen else pv :: dedupPairAux t (pv :: seen)

/-- Keep-first pair deduplication. -/
def dedupPairF (l : List (String × String)) : List (String × String) :=
  dedupPairAux l []

/-- Pairwise distinctness of a string key over a list, as a boolean. -/
def allDistinctBy {α : Type} (key : α → String) : List α → Bool
  | [] => true
  | x :: t => !(t.any (fun y => key y = key x)) && allDistinctBy key t

/-- The synthetic plain-CSS colour naming: `color-(n+1)`, `color-(n+2)`, …
over a token list. -/
def syntheticColors : Nat → List String → List ColorEntry
  | _, [] => []
  | n, h :: t =>
    ⟨"color-" ++ toString (n + 1), h, "Extracted from CSS"⟩ :: syntheticColors (n + 1) t

-- # Helper lemmas

/-- A list after `dropWhile` is empty or starts with a character failing the
predicate. -/
theorem dropWhile_head_false (p : Char → Bool) :
    ∀ l : List Char, l.dropWhile p = [] ∨
      ∃ c t, l.dropWhile p = c :: t ∧ p c = false := by
  intro l
  induction l with
  | nil => exact Or.inl rfl
  | cons c t ih =>
    by_cases hc : p c
    · simpa [List.dropWhile_cons, hc] using ih
    · exact Or.inr ⟨c, t, by simp [List.dropWhile_cons, hc], by simpa using hc⟩

/-- `getLastD` of a non-empty list is a member. -/
theorem getLastD_mem_of_ne_nil (d : Char) (l : List Char) (h : l ≠ []) :
    l.getLastD d ∈ l := by
  rw [List.getLastD_eq_getLast?, List.getLast?_eq_getLast l h]
  exact List.getLast_mem h

/-- Dropping the length of the `takeWhile` prefix is `dropWhile`. -/
theorem drop_takeWhile_length (p : Char → Bool) (l : List Char) :
    l.drop (l.takeWhile p).length = l.dropWhile p := by
  nth_rewrite 2 [← List.takeWhile_append_dropWhile (p := p) (l := l)]
  exact List.drop_left _ _

/-- Every character of a `wsCapture` comes from the captured prefix. -/
theorem wsCapture_mem (p : List Char) (hp : p ≠ []) :
    ∀ c ∈ wsCapture p, c ∈ p := by
  intro c hc
  unfold wsCapture at hc
  split at hc
  · exact List.mem_of_mem_drop hc
  · have : c = p.getLastD ' ' := by simpa using hc
    exact this ▸ getLastD_mem_of_ne_nil ' ' p hp

/-- Specification of the `\s*([^;]+)` matcher: the capture is
semicolon-free and the whole match runs exactly to the first semicolon (or
the end of the input). -/
theorem matchWsValue_spec (l cap rest : List Char)
    (h : matchWsValue l = some (cap, rest)) :
    (∀ c ∈ cap, c ≠ ';') ∧ (rest = [] ∨ ∃ t, rest = ';' :: t) := by
  unfold matchWsValue at h
  split at h
  · exact absurd h (by simp)
  · rename_i hp
    rw [Option.some.injEq, Prod.mk.injEq] at h
    obtain ⟨hcap, hrest⟩ := h
    have hpn : l.takeWhile (fun c => c ≠ ';') ≠ [] := by
      intro hnil; rw [hnil] at hp; exact hp rfl
    constructor
    · intro c hc
      have hcp : c ∈ l.takeWhile (fun c => c ≠ ';') :=
        wsCapture_mem _ hpn c (hcap ▸ hc)
      simpa using List.mem_takeWhile_imp hcp
    · rcases dropWhile_head_false (fun c => c ≠ ';') l with hnil | ⟨c, t, heq, hfc⟩
      · exact Or.inl (by rw [← hrest, drop_takeWhile_length, hnil])
      · refine Or.inr ⟨t, ?_⟩
        have hcs : c = ';' := by simpa using hfc
        rw [← hrest, drop_takeWhile_length, heq, hcs]

/-- `String`s with equal character data are equal. -/
theorem strExt (a b : String) (h : a.data = b.data) : a = b := by
  cases a; cases b; exact congrArg String.mk h

/-- Unfolding equation for `allDistinctBy` at a cons cell. -/
theorem allDistinctBy_cons {α : Type} (k : α → String) (x : α) (t : List α) :
    allDistinctBy k (x :: t) = (!(t.any fun y => k y = k x) && allDistinctBy k t) := rfl

/-- Propositional form of distinctness at a cons cell. -/
theorem allDistinctBy_cons_iff {α : Type} (k : α → String) (x : α) (t : List α) :
    allDistinctBy k (x :: t) = true ↔
      (∀ y ∈ t, ¬ k y = k x) ∧ allDistinctBy k t = true := by
  rw [allDistinctBy_cons, Bool.and_eq_true, Bool.not_eq_true']
  rw [List.any_eq_false]
  simp only [decide_eq_true_eq]

/-- `any` over a `map` evaluates the predicate on the image. -/
theorem any_map_key {α β : Type} (g : α → β) (p : β → Bool) :
    ∀ l : List α, (l.map g).any p = l.any (fun x => p (g x)) := by
  intro l
  induction l with
  | nil => rfl
  | cons x t ih => simp only [List.map_cons, List.any_cons, ih]

/-- Distinctness over a `map` reduces to the composed key. -/
theorem allDistinctBy_map {α β : Type} (k : β → String) (g : α → β) :
    ∀ l : List α, allDistinctBy k (l.map g) = allDistinctBy (fun x => k (g x)) l := by
  intro l
  induction l with
  | nil => rfl
  | cons x t ih =>
    rw [List.map_cons, allDistinctBy_cons, allDistinctBy_cons, ih, any_map_key]

/-- Distinctness of an append, from distinctness of the parts and
cross-part key disjointness. -/
theorem allDistinctBy_append {α : Type} (k : α → String) :
    ∀ l1 l2 : List α, allDistinctBy k l1 = true → allDistinctBy k l2 = true →
      (∀ a ∈ l1, ∀ b ∈ l2, ¬ k b = k a) → allDistinctBy k (l1 ++ l2) = true := by
  intro l1
  induction l1 with
  | nil => intro l2 _ h2 _; simpa using h2
  | cons a t ih =>
    intro l2 h1 h2 hx
    rw [allDistinctBy_cons_iff] at h1
    rw [List.cons_append, allDistinctBy_cons_iff]
    refine ⟨?_, ih l2 h1.2 h2 (fun a' ha' => hx a' (List.mem_cons_of_mem a ha'))⟩
    intro y hy
    rcases List.mem_append.mp hy with hyt | hy2
    · exact h1.1 y hyt
    · exact hx a (List.mem_cons_self a t) y hy2

-- ### Invariants of the dedup folds

/-- The plain-CSS colour fold never emits a hex already seen, and its
output hexes are pairwise distinct (exact string comparison). -/
theorem extractColorsAux_hex_inv :
    ∀ (l seen : List String) (n : Nat),
      (∀ e ∈ extractColorsAux l seen n, e.hex ∉ seen) ∧
      allDistinctBy (fun c => c.hex) (extractColorsAux l seen n) = true := by
  intro l
  induction l with
  | nil => intro seen n; exact ⟨fun e he => absurd he (List.not_mem_nil e), rfl⟩
  | cons h t ih =>
    intro seen n
    by_cases hm : h ∈ seen
    · simpa [extractColorsAux, hm] using ih seen n
    · simp only [extractColorsAux, if_neg hm]
      obtain ⟨ih1, ih2⟩ := ih (h :: seen) (n + 1)
      constructor
      · intro e he
        rcases List.mem_cons.mp he with rfl | hmem
        · exact hm
        · intro hs
          exact ih1 e hmem (List.mem_cons_of_mem h hs)
      · rw [allDistinctBy_cons_iff]
        refine ⟨?_, ih2⟩
        intro e he heq
        have heq' : e.hex = h := heq
        exact ih1 e he (List.mem_cons.mpr (Or.inl heq'))

/-- With pairwise-distinct tokens the plain-CSS colour fold is exactly the
synthetic numbering. -/
theorem extractColorsAux_nodup_eq :
    ∀ (l seen : List String) (n : Nat), (∀ x ∈ l, x ∉ seen) → l.Nodup →
      extractColorsAux l seen n = syntheticColors n l := by
  intro l
  induction l with
  | nil => intros; rfl
  | cons h t ih =>
    intro seen n hdis hnd
    have hm : h ∉ seen := hdis h (List.mem_cons_self h t)
    simp only [extractColorsAux, if_neg hm, syntheticColors]
    congr 1
    refine ih (h :: seen) (n + 1) ?_ (List.nodup_cons.mp hnd).2
    intro x hx hmem
    rcases List.mem_cons.mp hmem with rfl | hs
    · exact (List.nodup_cons.mp hnd).1 hx
    · exact hdis x (List.mem_cons_of_mem h hx) hs

/-- The length of the synthetic numbering. -/
theorem syntheticColors_length : ∀ (n : Nat) (l : List String),
    (syntheticColors n l).length = l.length := by
  intro n l
  induction l generalizing n with
  | nil => rfl
  | cons h t ih => simp [syntheticColors, ih]

/-- The Tailwind-colour fold never emits a lowercased hex already seen,
and its output is pairwise distinct by lowercased hex. -/
theorem extractTailwindColorsAux_inv :
    ∀ (l : List (String × String)) (seen : List String),
      (∀ e ∈ extractTailwindColorsAux l seen, lowerStr e.hex ∉ seen) ∧
      allDistinctBy (fun c => lowerStr c.hex) (extractTailwindColorsAux l seen) = true := by
  intro l
  induction l with
  | nil => intro seen; exact ⟨fun e he => absurd he (List.not_mem_nil e), rfl⟩
  | cons nh t ih =>
    intro seen
    obtain ⟨nm, hx⟩ := nh
    by_cases hm : lowerStr hx ∈ seen
    · simpa [extractTailwindColorsAux, hm] using ih seen
    · simp only [extractTailwindColorsAux, if_neg hm]
      obtain ⟨ih1, ih2⟩ := ih (lowerStr hx :: seen)
      constructor
      · intro e he
        rcases List.mem_cons.mp he with rfl | hmem
        · exact hm
        · intro hs
          exact ih1 e hmem (List.mem_cons_of_mem _ hs)
      · rw [allDistinctBy_cons_iff]
        refine ⟨?_, ih2⟩
        intro e he heq
        have heq' : lowerStr e.hex = lowerStr hx := heq
        exact ih1 e he (List.mem_cons.mpr (Or.inl heq'))

/-- The keep-first dedup fold never emits a seen element, and its output is
pairwise distinct. -/
theorem dedupFAux_inv :
    ∀ (l seen : List String),
      (∀ x ∈ dedupFAux l seen, x ∉ seen) ∧
      allDistinctBy (fun s => s) (dedupFAux l seen) = true := by
  intro l
  induction l with
  | nil => intro seen; exact ⟨fun x hx => absurd hx (List.not_mem_nil x), rfl⟩
  | cons h t ih =>
    intro seen
    by_cases hm : h ∈ seen
    · simpa [dedupFAux, hm] using ih seen
    · simp only [dedupFAux, if_neg hm]
      obtain ⟨ih1, ih2⟩ := ih (h :: seen)
      constructor
      · intro x hx
        rcases List.mem_cons.mp hx with rfl | hmem
        · exact hm
        · intro hs
          exact ih1 x hmem (List.mem_cons_of_mem h hs)
      · rw [allDistinctBy_cons_iff]
        refine ⟨?_, ih2⟩
        intro x hx heq
        exact ih1 x hx (List.mem_cons.mpr (Or.inl heq))

/-- `dedupFAux` only depends on the membership of the seen accumulator. -/
theorem dedupFAux_congr :
    ∀ (l s1 s2 : List String), (∀ x, x ∈ s1 ↔ x ∈ s2) →
      dedupFAux l s1 = dedupFAux l s2 := by
  intro l
  induction l with
  | nil => intros; rfl
  | cons h t ih =>
    intro s1 s2 hiff
    by_cases hm : h ∈ s1
    · rw [dedupFAux, if_pos hm, dedupFAux, if_pos ((hiff h).mp hm)]
      exact ih s1 s2 hiff
    · rw [dedupFAux, if_neg hm, dedupFAux, if_neg (fun hc => hm ((hiff h).mpr hc))]
      congr 1
      refine ih (h :: s1) (h :: s2) ?_
      intro x
      simp only [List.mem_cons]
      exact or_congr Iff.rfl (hiff x)

/-- The `Set`-building loop of `extractFonts` is the keep-first dedup. -/
theorem buildFams_eq :
    ∀ (l fams : List String), buildFams l fams = fams ++ dedupFAux l fams := by
  intro l
  induction l with
  | nil => intro fams; simp [buildFams, dedupFAux]
  | cons h t ih =>
    intro fams
    by_cases hm : h ∈ fams
    · rw [buildFams, if_pos hm, dedupFAux, if_pos hm]
      exact ih fams
    · rw [buildFams, if_neg hm, dedupFAux, if_neg hm, ih (fams ++ [h])]
      rw [List.append_assoc, List.singleton_append]
      congr 2
      refine dedupFAux_congr t (fams ++ [h]) (h :: fams) ?_
      intro x
      simp only [List.mem_append, List.mem_cons, List.not_mem_nil, or_false]
      exact Or.comm

-- ### Invariants of the two `extractTailwindFonts` passes

/-- The Tailwind-config font pass: emitted lowercased families are fresh
relative to the incoming seen set, land in the outgoing seen set, are
pairwise distinct, and the seen set only grows. -/
theorem twFontCfgAux_inv :
    ∀ (caps seen : List String),
      (∀ f ∈ (twFontCfgAux caps seen).1,
        lowerStr f.family ∉ seen ∧ lowerStr f.family ∈ (twFontCfgAux caps seen).2) ∧
      allDistinctBy (fun f => lowerStr f.family) (twFontCfgAux caps seen).1 = true ∧
      (∀ s ∈ seen, s ∈ (twFontCfgAux caps seen).2) := by
  intro caps
  induction caps with
  | nil =>
    intro seen
    exact ⟨fun f hf => absurd hf (List.not_mem_nil f), rfl, fun s hs => hs⟩
  | cons cap t ih =>
    intro seen
    rw [twFontCfgAux]
    dsimp only
    split
    · rename_i hcond
      rw [Bool.and_eq_true, decide_eq_true_eq, decide_eq_true_eq] at hcond
      obtain ⟨ih1, ih2, ih3⟩ := ih (lowerStr (jsTrim cap) :: seen)
      refine ⟨?_, ?_, ?_⟩
      · intro f hf
        rcases List.mem_cons.mp hf with rfl | hmem
        · exact ⟨hcond.2, ih3 _ (List.mem_cons_self _ _)⟩
        · obtain ⟨hst, hin⟩ := ih1 f hmem
          exact ⟨fun hs => hst (List.mem_cons_of_mem _ hs), hin⟩
      · rw [allDistinctBy_cons_iff]
        refine ⟨?_, ih2⟩
        intro f hf heq
        have heq' : lowerStr f.family = lowerStr (jsTrim cap) := heq
        exact (ih1 f hf).1 (List.mem_cons.mpr (Or.inl heq'))
      · intro s hs
        exact ih3 s (List.mem_cons_of_mem _ hs)
    · exact ih seen

/-- The Google-Fonts pass: on success, emitted lowercased families are
fresh relative to the incoming seen set and pairwise distinct. -/
theorem twFontGoogleAux_inv :
    ∀ (caps seen : List String) (fs : List FontEntry),
      twFontGoogleAux caps seen = some fs →
      (∀ f ∈ fs, lowerStr f.family ∉ seen) ∧
      allDistinctBy (fun f => lowerStr f.family) fs = true := by
  intro caps
  induction caps with
  | nil =>
    intro seen fs h
    cases h
    exact ⟨fun f hf => absurd hf (List.not_mem_nil f), rfl⟩
  | cons cap t ih =>
    intro seen fs h
    rw [twFontGoogleAux] at h
    cases hg : googleFamilyOf cap with
    | none => rw [hg] at h; cases h
    | some family =>
      rw [hg] at h
      dsimp only at h
      split at h
      · rename_i hcond
        rw [Bool.and_eq_true, decide_eq_true_eq, decide_eq_true_eq] at hcond
        cases hrec : twFontGoogleAux t (lowerStr family :: seen) with
        | none => rw [hrec] at h; cases h
        | some fs2 =>
          rw [hrec] at h
          simp only [Option.map_some', Option.some.injEq] at h
          subst h
          obtain ⟨ih1, ih2⟩ := ih (lowerStr family :: seen) fs2 hrec
          constructor
          · intro f hf
            rcases List.mem_cons.mp hf with rfl | hmem
            · exact hcond.2
            · intro hs
              exact ih1 f hmem (List.mem_cons_of_mem _ hs)
          · rw [allDistinctBy_cons_iff]
            refine ⟨?_, ih2⟩
            intro f hf heq
            have heq' : lowerStr f.family = lowerStr family := heq
            exact ih1 f hf (List.mem_cons.mpr (Or.inl heq'))
      · exact ih seen fs h

/-- The Google-Fonts pass succeeds whenever every capture decodes. -/
theorem twFontGoogleAux_total :
    ∀ (caps seen : List String),
      (∀ cap ∈ caps, (jsDecodeURIComponent cap).isSome = true) →
      (twFontGoogleAux caps seen).isSome = true := by
  intro caps
  induction caps with
  | nil => intro seen _; rfl
  | cons cap t ih =>
    intro seen hdec
    rw [twFontGoogleAux]
    have hsome : (jsDecodeURIComponent cap).isSome = true :=
      hdec cap (List.mem_cons_self cap t)
    cases hd : jsDecodeURIComponent cap with
    | none => rw [hd] at hsome; cases hsome
    | some dec =>
      have hg : googleFamilyOf cap =
          some (jsTrim ⟨(dec.data.takeWhile (fun c => c ≠ ':')).map
            (fun c => if c = '+' then ' ' else c)⟩) := by
        rw [googleFamilyOf, hd]; rfl
      rw [hg]
      have hrest : ∀ cap2 ∈ t, (jsDecodeURIComponent cap2).isSome = true :=
        fun cap2 h2 => hdec cap2 (List.mem_cons_of_mem cap h2)
      dsimp only
      split
      · rw [Option.isSome_map']
        exact ih _ hrest
      · exact ih seen hrest

-- ### Field preservation of the theme-merge steps

/-- The font step leaves the colour sequence alone. -/
theorem themeFontStep_colors (o : Option String) (ctx : DesignContext) :
    (themeFontStep o ctx).colors = ctx.colors := by
  cases o with
  | none => rfl
  | some s =>
    simp only [themeFontStep]
    split
    · rfl
    · split <;> rfl

/-- The colour-mode step leaves the colour sequence alone. -/
theorem themeModeStep_colors (o : Option String) (ctx : DesignContext) :
    (themeModeStep o ctx).colors = ctx.colors := by
  cases o with
  | none => rfl
  | some s =>
    simp only [themeModeStep]
    split <;> rfl

/-- The colour step leaves the layout sequence alone. -/
theorem themeColorStep_layouts (o : Option String) (ctx : DesignContext) :
    (themeColorStep o ctx).layouts = ctx.layouts := by
  cases o with
  | none => rfl
  | some s =>
    simp only [themeColorStep]
    split
    · rfl
    · split <;> rfl

/-- The font step leaves the layout sequence alone. -/
theorem themeFontStep_layouts (o : Option String) (ctx : DesignContext) :
    (themeFontStep o ctx).layouts = ctx.layouts := by
  cases o with
  | none => rfl
  | some s =>
    simp only [themeFontStep]
    split
    · rfl
    · split <;> rfl

-- ### Key injectivity for the spacing dedup

/-- The spacing dedup key determines the `(property, value)` pair, for the
three properties the scan can produce. -/
theorem spacingKey_inj (p1 p2 v1 v2 : String)
    (h1 : p1 = "margin" ∨ p1 = "padding" ∨ p1 = "gap")
    (h2 : p2 = "margin" ∨ p2 = "padding" ∨ p2 = "gap")
    (h : spacingKey p1 v1 = spacingKey p2 v2) : p1 = p2 ∧ v1 = v2 := by
  have hd := congrArg String.data h
  rcases h1 with rfl | rfl | rfl <;> rcases h2 with rfl | rfl | rfl
  case inl.inl =>
    refine ⟨rfl, ?_⟩
    have e1 : (spacingKey "margin" v1).data = "margin-".data ++ v1.data := rfl
    have e2 : (spacingKey "margin" v2).data = "margin-".data ++ v2.data := rfl
    rw [e1, e2] at hd
    exact strExt v1 v2 (List.append_cancel_left hd)
  case inr.inl.inr.inl =>
    refine ⟨rfl, ?_⟩
    have e1 : (spacingKey "padding" v1).data = "padding-".data ++ v1.data := rfl
    have e2 : (spacingKey "padding" v2).data = "padding-".data ++ v2.data := rfl
    rw [e1, e2] at hd
    exact strExt v1 v2 (List.append_cancel_left hd)
  case inr.inr.inr.inr =>
    refine ⟨rfl, ?_⟩
    have e1 : (spacingKey "gap" v1).data = "gap-".data ++ v1.data := rfl
    have e2 : (spacingKey "gap" v2).data = "gap-".data ++ v2.data := rfl
    rw [e1, e2] at hd
    exact strExt v1 v2 (List.append_cancel_left hd)
  all_goals
    exfalso
    first
    | (have e1 : (spacingKey "margin" v1).data = 'm' :: ("argin-".data ++ v1.data) := rfl
       have e2 : (spacingKey "padding" v2).data = 'p' :: ("adding-".data ++ v2.data) := rfl
       rw [e1, e2] at hd
       injection hd with hh _
       exact absurd hh (by decide))
    | (have e1 : (spacingKey "margin" v1).data = 'm' :: ("argin-".data ++ v1.data) := rfl
       have e2 : (spacingKey "gap" v2).data = 'g' :: ("ap-".data ++ v2.data) := rfl
       rw [e1, e2] at hd
       injection hd with hh _
       exact absurd hh (by decide))
    | (have e1 : (spacingKey "padding" v1).data = 'p' :: ("adding-".data ++ v1.data) := rfl
       have e2 : (spacingKey "margin" v2).data = 'm' :: ("argin-".data ++ v2.data) := rfl
       rw [e1, e2] at hd
       injection hd with hh _
       exact absurd hh (by decide))
    | (have e1 : (spacingKey "padding" v1).data = 'p' :: ("adding-".data ++ v1.data) := rfl
       have e2 : (spacingKey "gap" v2).data = 'g' :: ("ap-".data ++ v2.data) := rfl
       rw [e1, e2] at hd
       injection hd with hh _
       exact absurd hh (by decide))
    | (have e1 : (spacingKey "gap" v1).data = 'g' :: ("ap-".data ++ v1.data) := rfl
       have e2 : (spacingKey "margin" v2).data = 'm' :: ("argin-".data ++ v2.data) := rfl
       rw [e1, e2] at hd
       injection hd with hh _
       exact absurd hh (by decide))
    | (have e1 : (spacingKey "gap" v1).data = 'g' :: ("ap-".data ++ v1.data) := rfl
       have e2 : (spacingKey "padding" v2).data = 'p' :: ("adding-".data ++ v2.data) := rfl
       rw [e1, e2] at hd
       injection hd with hh _
       exact absurd hh (by decide))

-- ### The scan only produces the three spacing properties

/-- Any output of a global scan satisfies any property preserved by the
one-position matcher. -/
theorem scanWith_mem {α : Type} (tryAt : List Char → Option (α × List Char))
    (P : α → Prop) (hP : ∀ l v r, tryAt l = some (v, r) → P v) :
    ∀ (fuel : Nat) (l : List Char), ∀ x ∈ scanWith tryAt fuel l, P x := by
  intro fuel
  induction fuel with
  | zero => intro l x hx; cases hx
  | succ n ih =>
    intro l x hx
    cases l with
    | nil => cases hx
    | cons c t =>
      cases htry : tryAt (c :: t) with
      | none =>
        rw [scanWith, htry] at hx
        exact ih t x hx
      | some vr =>
        obtain ⟨v, rest⟩ := vr
        rw [scanWith, htry] at hx
        rcases List.mem_cons.mp hx with rfl | hmem
        · exact hP _ _ _ htry
        · exact ih rest x hmem

/-- A successful `tryDecl` always returns `mk` of some capture. -/
theorem tryDecl_shape {α : Type} (lit : List Char) (mk : List Char → α) (l : List Char)
    (v : α) (r : List Char) (h : tryDecl lit mk l = some (v, r)) :
    ∃ cap, v = mk cap := by
  unfold tryDecl at h
  split at h
  · cases hm : matchWsValue (l.drop lit.length) with
    | none => rw [hm] at h; cases h
    | some pr =>
      rw [hm] at h
      simp only [Option.map_some', Option.some.injEq, Prod.mk.injEq] at h
      exact ⟨pr.1, h.1.symm⟩
  · cases h

/-- The spacing matcher only yields the three property keywords. -/
theorem trySpacingAt_prop (l : List Char) (pv : String × List Char) (r : List Char)
    (h : trySpacingAt l = some (pv, r)) :
    pv.1 = "margin" ∨ pv.1 = "padding" ∨ pv.1 = "gap" := by
  unfold trySpacingAt at h
  cases hm : tryDecl "margin:".data (fun cap => (("margin" : String), cap)) l with
  | some v1 =>
    rw [hm] at h
    cases h
    obtain ⟨cap, hcap⟩ := tryDecl_shape _ _ _ _ _ hm
    exact Or.inl (congrArg Prod.fst hcap)
  | none =>
    rw [hm] at h
    cases hp : tryDecl "padding:".data (fun cap => (("padding" : String), cap)) l with
    | some v2 =>
      rw [hp] at h
      cases h
      obtain ⟨cap, hcap⟩ := tryDecl_shape _ _ _ _ _ hp
      exact Or.inr (Or.inl (congrArg Prod.fst hcap))
    | none =>
      rw [hp] at h
      obtain ⟨cap, hcap⟩ := tryDecl_shape _ _ _ _ _ h
      exact Or.inr (Or.inr (congrArg Prod.fst hcap))

/-- Every trimmed spacing pair carries one of the three properties. -/
theorem spacingVals_prop (css : String) :
    ∀ pv ∈ spacingVals css, pv.1 = "margin" ∨ pv.1 = "padding" ∨ pv.1 = "gap" := by
  intro pv hpv
  unfold spacingVals at hpv
  obtain ⟨pc, hpc, rfl⟩ := List.mem_map.mp hpv
  have := scanWith_mem trySpacingAt
    (fun x => x.1 = "margin" ∨ x.1 = "padding" ∨ x.1 = "gap")
    (fun l v r hv => by
      obtain ⟨p, c⟩ := v
      exact trySpacingAt_prop l (p, c) r hv)
    css.data.length css.data pc hpc
  simpa using this

/-- The key-based spacing dedup agrees with pair-based dedup, given that
all properties come from the three-keyword scan. -/
theorem extractSpacingAux_eq_pairs :
    ∀ (l ps : List (String × String)),
      (∀ pv ∈ l, pv.1 = "margin" ∨ pv.1 = "padding" ∨ pv.1 = "gap") →
      (∀ pv ∈ ps, pv.1 = "margin" ∨ pv.1 = "padding" ∨ pv.1 = "gap") →
      extractSpacingAux l (ps.map (fun q => spacingKey q.1 q.2)) =
        (dedupPairAux l ps).map (fun pv => (⟨pv.1, pv.2⟩ : SpacingEntry)) := by
  intro l
  induction l with
  | nil => intros; rfl
  | cons pv t ih =>
    intro ps hl hps
    obtain ⟨p, v⟩ := pv
    have hp3 := hl (p, v) (List.mem_cons_self _ _)
    have hmem : spacingKey p v ∈ ps.map (fun q => spacingKey q.1 q.2) ↔ (p, v) ∈ ps := by
      constructor
      · intro hk
        obtain ⟨q, hq, hkey⟩ := List.mem_map.mp hk
        obtain ⟨hq1, hq2⟩ := spacingKey_inj q.1 p q.2 v (hps q hq) hp3 hkey
        have hqe : q = (p, v) := Prod.ext_iff.mpr ⟨hq1, hq2⟩
        exact hqe ▸ hq
      · intro hk
        exact List.mem_map_of_mem _ hk
    by_cases hin : (p, v) ∈ ps
    · rw [extractSpacingAux, if_pos (hmem.mpr hin), dedupPairAux, if_pos hin]
      exact ih ps (fun x hx => hl x (List.mem_cons_of_mem _ hx)) hps
    · rw [extractSpacingAux, if_neg (fun hc => hin (hmem.mp hc)), dedupPairAux, if_neg hin]
      rw [List.map_cons]
      congr 1
      have hmapcons : ((p, v) :: ps).map (fun q => spacingKey q.1 q.2) =
          spacingKey p v :: ps.map (fun q => spacingKey q.1 q.2) := rfl
      rw [← hmapcons]
      refine ih ((p, v) :: ps) (fun x hx => hl x (List.mem_cons_of_mem _ hx)) ?_
      intro x hx
      rcases List.mem_cons.mp hx with rfl | h2
      · exact hp3
      · exact hps x h2

-- # Claim theorems

/-- C1 (counterexample): the full pipeline on CSS containing the
case-variant tokens `#FF0000` and `#ff0000` yields two colour entries whose
hexes agree after lowercasing — the claimed pipeline-wide invariant fails
(the plain-CSS extractor dedups on the exact matched string). -/
theorem pipeline_colors_lower_dup_cex :
    (extractDesignContextPure "#FF0000 #ff0000" "" none).map
      (fun d => d.colors.map (fun c => c.hex)) = some ["#FF0000", "#ff0000"] ∧
    allDistinctBy (fun c => lowerStr c.hex)
      (((extractDesignContextPure "#FF0000 #ff0000" "" none).getD
        ⟨[], [], [], []⟩).colors) = false := by
  decide

/-- C1 (amended): each colour extractor on its own never repeats its dedup
key — the plain-CSS pass is pairwise distinct by exact hex string, the
Tailwind-config pass by lowercased hex — but the merged pipeline sequence
may repeat a lowercased hex across passes or across case variants. -/
theorem colors_dedup_amended (css config : String) :
    allDistinctBy (fun c => c.hex) (extractColors css) = true ∧
    allDistinctBy (fun c => lowerStr c.hex) (extractTailwindColors config) = true :=
  ⟨(extractColorsAux_hex_inv (colorTokens css) [] 0).2,
   (extractTailwindColorsAux_inv (twColorCaptures config) []).2⟩

/-- C2 (counterexample): `extractTailwindFonts` is not total — on HTML
containing a Google-Fonts link whose family capture is a bare `%`,
`decodeURIComponent` throws a `URIError` (embedded as `none`). -/
theorem tailwindFonts_malformed_escape_cex :
    extractTailwindFonts "" "fonts.googleapis.com/css2?family=%" = none := by
  decide

/-- C2 (amended): every extraction helper is total except
`extractTailwindFonts`, which cannot throw as long as every captured
Google-Fonts family is a well-formed percent-escape sequence. -/
theorem tailwindFonts_total_amended (config html : String)
    (hdec : ∀ cap ∈ googleFontCaptures html, (jsDecodeURIComponent cap).isSome = true) :
    (extractTailwindFonts config html).isSome = true := by
  have hform : extractTailwindFonts config html =
      (twFontGoogleAux (googleFontCaptures html)
        (twFontCfgAux (twFontCaptures config) []).2).map
          (fun fs => (twFontCfgAux (twFontCaptures config) []).1 ++ fs) := rfl
  rw [hform, Option.isSome_map']
  exact twFontGoogleAux_total _ _ hdec

/-- Witness for C2 (amended) at a well-formed Google-Fonts link. -/
theorem tailwindFonts_total_amended_witness :
    (extractTailwindFonts "" "fonts.googleapis.com/css2?family=Roboto").isSome = true :=
  tailwindFonts_total_amended "" "fonts.googleapis.com/css2?family=Roboto" (by decide)

/-- C3: the full extraction pipeline is deterministic — equal CSS, HTML and
theme inputs produce byte-identical `DesignContext` JSON. -/
theorem pipeline_deterministic (css1 css2 html1 html2 : String)
    (t1 t2 : Option ThemeData) (hc : css1 = css2) (hh : html1 = html2) (ht : t1 = t2) :
    pipelineJson css1 html1 t1 = pipelineJson css2 html2 t2 := by
  rw [hc, hh, ht]

/-- Witness for C3 at a concrete run of the pipeline. -/
theorem pipeline_deterministic_witness :
    pipelineJson "color: #fff; margin: 4px" "" none =
      pipelineJson "color: #fff; margin: 4px" "" none :=
  pipeline_deterministic "color: #fff; margin: 4px" "color: #fff; margin: 4px"
    "" "" none none rfl rfl rfl

/-- C4 (counterexample): the full pipeline on CSS declaring the families
`Roboto` and `roboto` yields two font entries whose families agree after
lowercasing — the claimed pipeline-wide invariant fails (the plain-CSS
font pass dedups on the exact family string). -/
theorem pipeline_fonts_lower_dup_cex :
    (extractDesignContextPure "font-family: Roboto; font-family: roboto;" "" none).map
      (fun d => d.fonts.map (fun f => f.family)) = some ["Roboto", "roboto"] ∧
    allDistinctBy (fun f => lowerStr f.family)
      (((extractDesignContextPure "font-family: Roboto; font-family: roboto;" "" none).getD
        ⟨[], [], [], []⟩).fonts) = false := by
  decide

/-- C4 (amended): within each font pass no dedup key repeats — the
plain-CSS pass is pairwise distinct by exact family string, and the
combined Tailwind-config/Google-Fonts pass by lowercased family — but the
merged pipeline sequence may repeat a lowercased family across passes or
across case variants. -/
theorem fonts_dedup_amended (css config html : String) :
    allDistinctBy (fun f => f.family) (extractFonts css) = true ∧
    allDistinctBy (fun f => lowerStr f.family)
      ((extractTailwindFonts config html).getD []) = true := by
  constructor
  · show allDistinctBy _ ((buildFams (fontFamilyVals css) []).map _) = true
    rw [allDistinctBy_map, buildFams_eq, List.nil_append]
    exact (dedupFAux_inv (fontFamilyVals css) []).2
  · cases h : extractTailwindFonts config html with
    | none => rfl
    | some fs =>
      have h2 : (twFontGoogleAux (googleFontCaptures html)
          (twFontCfgAux (twFontCaptures config) []).2).map
            (fun gfs => (twFontCfgAux (twFontCaptures config) []).1 ++ gfs) = some fs := h
      cases hg : twFontGoogleAux (googleFontCaptures html)
          (twFontCfgAux (twFontCaptures config) []).2 with
      | none => rw [hg] at h2; cases h2
      | some gfs =>
        rw [hg, Option.map_some', Option.some.injEq] at h2
        subst h2
        obtain ⟨c1, c2, _⟩ := twFontCfgAux_inv (twFontCaptures config) []
        obtain ⟨g1, g2⟩ := twFontGoogleAux_inv _ _ _ hg
        refine allDistinctBy_append _ _ _ c2 g2 ?_
        intro a ha b hb heq
        exact g1 b hb (by rw [heq]; exact (c1 a ha).2)

/-- C5 (counterexample): the theme object carries the string
`customColor = ""` and no colour entry matches it, yet nothing is
prepended — the guard uses JS truthiness, so the empty string is skipped. -/
theorem theme_customColor_empty_cex :
    extractDesignContextPure "" "" (some ⟨some "", none, none⟩) =
      some ⟨[], [], [], []⟩ ∧
    (some (⟨[], [], [], []⟩ : DesignContext)).map DesignContext.colors ≠
      some [⟨"primary", "", "Theme primary color"⟩] := by
  decide

/-- C5 (amended): for a NON-EMPTY string `customColor`, if no
already-extracted colour's hex matches it case-insensitively, the
`primary` entry is prepended; if some entry matches, the colour sequence is
left unchanged. -/
theorem theme_customColor_merge_amended (css html : String) (th : ThemeData)
    (ctx : DesignContext) (s : String)
    (hpre : preThemeContext css html = some ctx)
    (hcc : th.customColor = some s) (hne : s ≠ "") :
    ((ctx.colors.any (fun c => lowerStr c.hex = lowerStr s)) = false →
      (extractDesignContextPure css html (some th)).map DesignContext.colors =
        some (⟨"primary", s, "Theme primary color"⟩ :: ctx.colors)) ∧
    ((ctx.colors.any (fun c => lowerStr c.hex = lowerStr s)) = true →
      (extractDesignContextPure css html (some th)).map DesignContext.colors =
        some ctx.colors) := by
  have hmap : extractDesignContextPure css html (some th) =
      some (applyTheme (some th) ctx) := by
    rw [extractDesignContextPure, hpre, Option.map_some']
  have hcolors : (applyTheme (some th) ctx).colors =
      (themeColorStep th.customColor ctx).colors := by
    show (themeModeStep th.colorMode
      (themeFontStep th.font (themeColorStep th.customColor ctx))).colors = _
    rw [themeModeStep_colors, themeFontStep_colors]
  constructor
  · intro hany
    rw [hmap, Option.map_some', Option.some.injEq, hcolors, hcc]
    simp only [themeColorStep, if_neg hne, hany, Bool.false_eq_true, if_false]
  · intro hany
    rw [hmap, Option.map_some', Option.some.injEq, hcolors, hcc]
    simp only [themeColorStep, if_neg hne, hany, if_true]

/-- Witness for C5 (amended): on an empty screen a non-empty theme colour
is prepended as the `primary` entry. -/
theorem theme_customColor_merge_amended_witness :
    (extractDesignContextPure "" "" (some ⟨some "#123456", none, none⟩)).map
      DesignContext.colors = some [⟨"primary", "#123456", "Theme primary color"⟩] :=
  (theme_customColor_merge_amended "" "" ⟨some "#123456", none, none⟩
    ⟨[], [], [], []⟩ "#123456" (by decide) rfl (by decide)).1 (by decide)

/-- C6 (counterexample): the theme object carries the string
`colorMode = ""`, yet no layout entry is prepended — the "unconditional"
prepend is in fact guarded by JS truthiness, so the empty string is
skipped. -/
theorem theme_colorMode_empty_cex :
    extractDesignContextPure "" "" (some ⟨none, none, some ""⟩) =
      some ⟨[], [], [], []⟩ ∧
    ([] : List LayoutEntry) ≠ [⟨"", " color mode"⟩] := by
  decide

/-- C6 (amended): for a NON-EMPTY string `colorMode`, the entry
`{type: colorMode, description: colorMode ++ " color mode"}` is prepended
to the layouts sequence unconditionally — no dedup check, even if an
identical entry is already present. -/
theorem theme_colorMode_prepend_amended (css html : String) (th : ThemeData)
    (ctx : DesignContext) (m : String)
    (hpre : preThemeContext css html = some ctx)
    (hcm : th.colorMode = some m) (hne : m ≠ "") :
    (extractDesignContextPure css html (some th)).map DesignContext.layouts =
      some (⟨m, m ++ " color mode"⟩ :: ctx.layouts) := by
  have hmap : extractDesignContextPure css html (some th) =
      some (applyTheme (some th) ctx) := by
    rw [extractDesignContextPure, hpre, Option.map_some']
  rw [hmap, Option.map_some', Option.some.injEq]
  show (themeModeStep th.colorMode
    (themeFontStep th.font (themeColorStep th.customColor ctx))).layouts = _
  have hY : (themeFontStep th.font (themeColorStep th.customColor ctx)).layouts =
      ctx.layouts := by
    rw [themeFontStep_layouts, themeColorStep_layouts]
  rw [hcm]
  simp only [themeModeStep, if_neg hne]
  rw [hY]

/-- Witness for C6 (amended): a non-empty colour mode is prepended in front
of the detected layouts. -/
theorem theme_colorMode_prepend_amended_witness :
    (extractDesignContextPure "" "<div class=\"flex\">x</div>"
      (some ⟨none, none, some "dark"⟩)).map DesignContext.layouts =
      some [⟨"dark", "dark color mode"⟩,
        ⟨"Flexbox", "Uses CSS Flexbox for layout"⟩] :=
  theme_colorMode_prepend_amended "" "<div class=\"flex\">x</div>"
    ⟨none, none, some "dark"⟩
    ⟨[], [], [], [⟨"Flexbox", "Uses CSS Flexbox for layout"⟩]⟩ "dark"
    (by decide) rfl (by decide)

/-- C7: plain-CSS font extraction returns one entry per distinct
font-family declaration value (trimmed, quotes stripped, first-appearance
order), every entry carrying the globally-first font-weight and font-size
values (with JS-falsy defaults `400`/`16px`); on
`"font-family: 'Roboto', sans-serif;"` it returns exactly the single
entry with family `Roboto, sans-serif`. -/
theorem extractFonts_characterization :
    (∀ css, extractFonts css =
      (dedupF (fontFamilyVals css)).map (fun fam =>
        (⟨fam, jsIndex0Or (fontWeightVals css) "400",
          jsIndex0Or (fontSizeVals css) "16px", "Extracted from CSS"⟩ : FontEntry))) ∧
    extractFonts "font-family: 'Roboto', sans-serif;" =
      [⟨"Roboto, sans-serif", "400", "16px", "Extracted from CSS"⟩] := by
  constructor
  · intro css
    show (buildFams (fontFamilyVals css) []).map _ = _
    rw [buildFams_eq, List.nil_append]
    rfl
  · decide

/-- C8: on CSS whose colour-token scan has no duplicates, plain-CSS colour
extraction returns exactly one entry per token, in document order, with
synthetic names `color-1`, `color-2`, … and usage `Extracted from CSS`. -/
theorem extractColors_distinct_tokens (css : String)
    (h : (colorTokens css).Nodup) :
    extractColors css = syntheticColors 0 (colorTokens css) ∧
    (extractColors css).length = (colorTokens css).length := by
  have he : extractColors css = syntheticColors 0 (colorTokens css) :=
    extractColorsAux_nodup_eq (colorTokens css) [] 0
      (fun x _ hx => absurd hx (List.not_mem_nil x)) h
  exact ⟨he, by rw [he, syntheticColors_length]⟩

/-- Witness for C8 on CSS with two distinct hex tokens. -/
theorem extractColors_distinct_tokens_witness :
    extractColors "#abc #def" = syntheticColors 0 (colorTokens "#abc #def") ∧
    (extractColors "#abc #def").length = (colorTokens "#abc #def").length :=
  extractColors_distinct_tokens "#abc #def" (by decide)

/-- C9: spacing extraction returns one entry per distinct
`(property, value)` pair (values trimmed) in joint document order of first
occurrence, and `"margin: 10px; margin: 10px;"` dedups to one entry. -/
theorem extractSpacing_characterization :
    (∀ css, extractSpacing css =
      (dedupPairF (spacingVals css)).map (fun pv => (⟨pv.1, pv.2⟩ : SpacingEntry))) ∧
    extractSpacing "margin: 10px; margin: 10px;" = [⟨"margin", "10px"⟩] := by
  constructor
  · intro css
    show extractSpacingAux (spacingVals css) [] = _
    have hnil : ([] : List String) =
        ([] : List (String × String)).map (fun q => spacingKey q.1 q.2) := rfl
    rw [hnil]
    exact extractSpacingAux_eq_pairs (spacingVals css) [] (spacingVals_prop css)
      (fun pv hpv => absurd hpv (List.not_mem_nil pv))
  · decide

/-- C10: the captured spacing value runs from after the colon to the first
semicolon or the end of input (never containing a semicolon, and stopping
exactly at one when present), spanning braces and newlines; in particular
`"margin: 10px \x7d"` yields the single entry with value `10px }`. -/
theorem extractSpacing_value_span :
    extractSpacing "margin: 10px \x7d" = [⟨"margin", "10px \x7d"⟩] ∧
    ∀ l cap rest, matchWsValue l = some (cap, rest) →
      (∀ c ∈ cap, c ≠ ';') ∧ (rest = [] ∨ ∃ t, rest = ';' :: t) :=
  ⟨by decide, fun l cap rest h => matchWsValue_spec l cap rest h⟩

/-- Witness for C10 at the concrete tail `" 10px \x7d"`. -/
theorem extractSpacing_value_span_witness :
    (∀ c ∈ "10px \x7d".data, c ≠ ';') ∧
    (([] : List Char) = [] ∨ ∃ t, ([] : List Char) = ';' :: t) :=
  extractSpacing_value_span.2 " 10px \x7d".data "10px \x7d".data [] (by decide)

end Stitch
